import Mathlib

/-!
Shallow embedding of the tapedb core (simia-tech/tapedb, v2 packages
io, io/crypto and io/file) together with proofs about the behaviour of
its framed log codec, replay engine, block AEAD wrappers, splice
compactor and deck.  Byte streams are modelled as lists of natural
numbers; machine-integer truncation is made explicit with % 2 ^ 32 and
% 2 ^ 16 where the Go code casts.
-/

namespace TapeDB

/-! Framed log codec (io/log.go: logReader, logWriter). -/

/-- Entry type tag LogEntryTypeBinary (0x00000000). -/
def LogEntryTypeBinary : Nat := 0x00000000

/-- Entry type tag LogEntryTypeAESGCMEncrypted (0x10000000). -/
def LogEntryTypeAESGCMEncrypted : Nat := 0x10000000

/-- Type mask LogEntryTypeMask (0xf0000000). -/
def LogEntryTypeMask : Nat := 0xf0000000

/-- Big-endian byte encoding of a uint32 value, as binary.BigEndian.PutUint32. -/
def putUint32BE (v : Nat) : List Nat :=
  [v / 2 ^ 24 % 256, v / 2 ^ 16 % 256, v / 2 ^ 8 % 256, v % 256]

/-- Big-endian decoding of four bytes, as binary.BigEndian.Uint32. -/
def uint32BE (b0 b1 b2 b3 : Nat) : Nat :=
  b0 * 2 ^ 24 + b1 * 2 ^ 16 + b2 * 2 ^ 8 + b3

/-- Header written by logWriter.writeEntryHeader: the size with the type
nibble cleared (Go: size &= ^LogEntryTypeMask, where the complement on
uint32 is 2 ^ 28 - 1), or-ed with the entry type value. -/
def writeEntryHeader (et : Nat) (size : Nat) : List Nat :=
  putUint32BE (size &&& (2 ^ 28 - 1) ||| et)

/-- logWriter.WriteEntry: the four header bytes followed by the body; the
data length is first cast to uint32. -/
def writeEntry (et : Nat) (data : List Nat) : List Nat :=
  writeEntryHeader et (data.length % 2 ^ 32) ++ data

/-- Byte stream of a whole log, one WriteEntry per entry. -/
def logBytes (entries : List (Nat × List Nat)) : List Nat :=
  (entries.map fun p => writeEntry p.1 p.2).flatten

/-- logReader.ReadEntry, iterated as by ReadLogEntries while letting the
consumer of every entry read only a prefix of its bounded reader.
State: the byte stream left after the last consumed byte, and the number
of unread bytes of the previous entry that ReadEntry still has to skip
(Go: Seek of lastSize minus the CountReader count).  The list cs gives,
for every entry to be read, how many bytes its consumer reads from the
bounded (LimitReader) reader; the reader delivers at most size bytes.
Returns the list of (type, full body) pairs, the body being what a full
read of the bounded reader would yield. -/
def readLogEntries (s : List Nat) (skip : Nat) : List Nat → Option (List (Nat × List Nat))
  | [] => some []
  | c :: cs =>
    let s1 := s.drop skip
    match s1 with
    | b0 :: b1 :: b2 :: b3 :: rest =>
      let v := uint32BE b0 b1 b2 b3
      let et := v &&& LogEntryTypeMask
      let size := v &&& (2 ^ 28 - 1)
      let body := rest.take size
      let consumed := min c size
      (readLogEntries (rest.drop consumed) (size - consumed) cs).map fun l => (et, body) :: l
    | _ => none

/-! Arithmetic facts about the header encoding. -/

theorem putUint32BE_uint32BE (v : Nat) (h : v < 2 ^ 32) :
    ∃ b0 b1 b2 b3, putUint32BE v = [b0, b1, b2, b3] ∧ uint32BE b0 b1 b2 b3 = v := by
  refine ⟨v / 2 ^ 24 % 256, v / 2 ^ 16 % 256, v / 2 ^ 8 % 256, v % 256, rfl, ?_⟩
  simp only [uint32BE]
  omega

theorem low_mask_of_lt {n : Nat} (h : n < 2 ^ 28) : n &&& (2 ^ 28 - 1) = n := by
  rw [Nat.and_pow_two_sub_one_eq_mod]
  exact Nat.mod_eq_of_lt h

theorem high_mask_of_lt {n : Nat} (h : n < 2 ^ 28) : n &&& LogEntryTypeMask = 0 := by
  apply Nat.eq_of_testBit_eq
  intro i
  simp only [Nat.testBit_and, Nat.zero_testBit]
  by_cases hi : i < 28
  · have hm : Nat.testBit LogEntryTypeMask i = false := by
      interval_cases i <;> decide
    simp [hm]
  · have hn : Nat.testBit n i = false :=
      Nat.testBit_lt_two_pow (Nat.lt_of_lt_of_le h (Nat.pow_le_pow_right (by omega) (by omega)))
    simp [hn]

theorem lor_tag_eq_add {n : Nat} (h : n < 2 ^ 28) :
    n ||| LogEntryTypeAESGCMEncrypted = 2 ^ 28 + n := by
  have h1 : 2 ^ 28 * 1 + n = 2 ^ 28 * 1 ||| n := Nat.mul_add_lt_is_or h 1
  rw [Nat.mul_one] at h1
  have h2 : LogEntryTypeAESGCMEncrypted = 2 ^ 28 := by decide
  rw [h2, Nat.lor_comm]
  omega

theorem header_value_binary {n : Nat} (h : n < 2 ^ 28) :
    n &&& (2 ^ 28 - 1) ||| LogEntryTypeBinary = n := by
  rw [low_mask_of_lt h]
  simp [LogEntryTypeBinary]

theorem header_roundtrip (et n : Nat)
    (htag : et = LogEntryTypeBinary ∨ et = LogEntryTypeAESGCMEncrypted)
    (h : n < 2 ^ 28) :
    (n &&& (2 ^ 28 - 1) ||| et) &&& LogEntryTypeMask = et ∧
      (n &&& (2 ^ 28 - 1) ||| et) &&& (2 ^ 28 - 1) = n ∧
      n &&& (2 ^ 28 - 1) ||| et < 2 ^ 32 := by
  rcases htag with hb | he
  · subst hb
    rw [header_value_binary h, high_mask_of_lt h, low_mask_of_lt h]
    refine ⟨rfl, rfl, ?_⟩
    calc n < 2 ^ 28 := h
    _ ≤ 2 ^ 32 := by norm_num
  · subst he
    rw [low_mask_of_lt h, lor_tag_eq_add h]
    have h28 : (2 ^ 28 + n) &&& (2 ^ 28 - 1) = n := by
      rw [Nat.and_pow_two_sub_one_eq_mod]
      omega
    have hhigh : (2 ^ 28 + n) &&& LogEntryTypeMask = LogEntryTypeAESGCMEncrypted := by
      have hsplit : 2 ^ 28 + n = 2 ^ 28 * 1 ||| n := by
        have := Nat.mul_add_lt_is_or h 1
        omega
      rw [hsplit, Nat.and_distrib_right]
      have h1 : 2 ^ 28 * 1 &&& LogEntryTypeMask = LogEntryTypeAESGCMEncrypted := by decide
      rw [h1, high_mask_of_lt h]
      simp [LogEntryTypeAESGCMEncrypted]
    exact ⟨hhigh, h28, by omega⟩

theorem readLogEntries_logBytes (entries : List (Nat × List Nat))
    (hvalid : ∀ p ∈ entries,
      (p.1 = LogEntryTypeBinary ∨ p.1 = LogEntryTypeAESGCMEncrypted) ∧ p.2.length < 2 ^ 28) :
    ∀ (junk : List Nat) (cs : List Nat), cs.length = entries.length →
      readLogEntries (junk ++ logBytes entries) junk.length cs = some entries := by
  induction entries with
  | nil =>
    intro junk cs hlen
    cases cs with
    | nil => rfl
    | cons c cs' => simp at hlen
  | cons p es ih =>
    intro junk cs hlen
    obtain ⟨c, cs', rfl⟩ : ∃ c cs', cs = c :: cs' := by
      cases cs with
      | nil => simp at hlen
      | cons c cs' => exact ⟨c, cs', rfl⟩
    obtain ⟨et, body⟩ := p
    have hv := hvalid (et, body) (by simp)
    have hlt : body.length < 2 ^ 28 := hv.2
    have hmod : body.length % 2 ^ 32 = body.length :=
      Nat.mod_eq_of_lt (by omega)
    have hhdr := header_roundtrip et body.length hv.1 hlt
    obtain ⟨b0, b1, b2, b3, hput, hdec⟩ :=
      putUint32BE_uint32BE (body.length &&& (2 ^ 28 - 1) ||| et) hhdr.2.2
    have hlog : logBytes ((et, body) :: es) =
        (b0 :: b1 :: b2 :: b3 :: body) ++ logBytes es := by
      simp only [logBytes, List.map_cons, List.flatten_cons, writeEntry, writeEntryHeader, hmod,
        hput]
      simp
    rw [readLogEntries]
    simp only [hlog, List.drop_left' (rfl : junk.length = junk.length)]
    simp only [List.cons_append, hdec, hhdr.1, hhdr.2.1]
    have hbody : (body ++ logBytes es).take body.length = body := List.take_left body _
    have hdropc : (body ++ logBytes es).drop (min c body.length) =
        body.drop (min c body.length) ++ logBytes es :=
      List.drop_append_of_le_length (Nat.min_le_right c body.length)
    have hrec := ih (fun q hq => hvalid q (List.mem_cons_of_mem _ hq))
      (body.drop (min c body.length)) cs' (by simpa using hlen)
    rw [List.length_drop] at hrec
    simp only [hbody, hdropc, hrec]
    rfl

/-- Claim C3: the framed log codec round-trips.  WriteEntry emits a
four-byte big-endian header whose value is the type tag or-ed with the
body length (the tag being the nibble shifted to the top four bits),
followed by the body.  Reading back a written stream of entries returns
every type and every full body, for any per-entry prefix-consumption
pattern cs, because ReadEntry skips the unread suffix of the previous
entry before decoding the next header. -/
theorem writeEntry_readEntry_roundtrip (entries : List (Nat × List Nat))
    (hvalid : ∀ p ∈ entries,
      (p.1 = LogEntryTypeBinary ∨ p.1 = LogEntryTypeAESGCMEncrypted) ∧ p.2.length < 2 ^ 28)
    (cs : List Nat) (hlen : cs.length = entries.length) :
    (∀ t body, body.length < 2 ^ 28 →
      writeEntry (t <<< 28) body = putUint32BE (t <<< 28 ||| body.length) ++ body) ∧
    readLogEntries (logBytes entries) 0 cs = some entries := by
  constructor
  · intro t body hb
    simp only [writeEntry, writeEntryHeader, Nat.mod_eq_of_lt (show body.length < 2 ^ 32 by omega),
      low_mask_of_lt hb, Nat.lor_comm]
  · have := readLogEntries_logBytes entries hvalid [] cs hlen
    simpa using this

/-- Witness for C3 at a concrete log: a Binary entry and an encrypted-type
entry, the first consumed only partially. -/
theorem writeEntry_readEntry_roundtrip_witness :
    readLogEntries (logBytes [(LogEntryTypeBinary, [7, 8, 9]),
        (LogEntryTypeAESGCMEncrypted, [1, 2])]) 0 [1, 2] =
      some [(LogEntryTypeBinary, [7, 8, 9]), (LogEntryTypeAESGCMEncrypted, [1, 2])] :=
  (writeEntry_readEntry_roundtrip
    [(LogEntryTypeBinary, [7, 8, 9]), (LogEntryTypeAESGCMEncrypted, [1, 2])]
    (by decide) [1, 2] (by decide)).2

/-! Replay engine (io/database.go: Database, OpenDatabase, Apply). -/

/-- Application collaborators as the replay engine sees them (tapedb.Base,
tapedb.State, tapedb.Change, tapedb.Factory): NewBase and NewState from
the factory, the fallible Apply capabilities of base and state (error
values of type E), the change serialization used by writeChange (TypeName
and WriteTo as byte lists), and the optional PayloadIDs capability used by
the splice callback (empty for types that are no PayloadContainer). -/
structure Factory (B S C E : Type) where
  NewBase : B
  NewState : B → S
  baseApply : B → C → Except E B
  stateApply : S → C → Except E S
  TypeName : C → List Nat
  WriteTo : C → List Nat
  basePayloadIDs : B → List String
  changePayloadIDs : C → List String

/-- Body bytes produced by writeChange: one length byte (Go casts the
type-name length to byte, truncating at 256), the type name, then the
output of Change.WriteTo. -/
def writeChangeBytes {B S C E : Type} (f : Factory B S C E) (c : C) : List Nat :=
  (f.TypeName c).length % 256 :: (f.TypeName c ++ f.WriteTo c)

/-- In-memory engine database: the base, the live state, the entries the
log writer has accepted so far, and the logLen counter. -/
structure Database (B S : Type) where
  base : B
  state : S
  logEntries : List (Nat × List Nat)
  logLen : Nat

/-- Error returned by Database.Apply: either the state.Apply error or a
log-write failure. -/
inductive ApplyError (E : Type) where
  | state (e : E)
  | write
deriving DecidableEq

/-- Database.Apply: run state.Apply first; on error return it unchanged.
Then writeChange the entry through the log writer (writerOk models
whether the underlying writer errors); only when that also succeeds is
logLen incremented.  A failed log write leaves the state already
mutated, the documented hazard. -/
def databaseApply {B S C E : Type} (f : Factory B S C E) (writerOk : Bool)
    (db : Database B S) (c : C) : Option (ApplyError E) × Database B S :=
  match f.stateApply db.state c with
  | .error e => (some (.state e), db)
  | .ok s1 =>
    if writerOk then
      (none, { db with state := s1,
                       logEntries := db.logEntries ++ [(LogEntryTypeBinary, writeChangeBytes f c)],
                       logLen := db.logLen + 1 })
    else (some .write, { db with state := s1 })

/-- Claim C2: Database.Apply is atomic with respect to state failure.  If
state.Apply errors, Apply returns that error, appends nothing to the log
writer and leaves logLen unchanged; if state.Apply and the log write both
succeed, exactly one Binary entry (the writeChange encoding of the
change) is appended and logLen increases by one. -/
theorem databaseApply_atomic {B S C E : Type} (f : Factory B S C E) (writerOk : Bool)
    (db : Database B S) (c : C) :
    (∀ e, f.stateApply db.state c = .error e →
      databaseApply f writerOk db c = (some (.state e), db)) ∧
    (∀ s1, f.stateApply db.state c = .ok s1 → writerOk = true →
      databaseApply f writerOk db c =
        (none, { base := db.base, state := s1,
                 logEntries := db.logEntries ++ [(LogEntryTypeBinary, writeChangeBytes f c)],
                 logLen := db.logLen + 1 })) := by
  constructor
  · intro e he
    simp [databaseApply, he]
  · intro s1 hs hw
    simp [databaseApply, hs, hw]

/-- Concrete counter application used for witness runs: bases and states
are numbers, a change adds its value, and the change value 99 is
rejected by the state. -/
def counterFactory : Factory Nat Nat Nat Nat where
  NewBase := 0
  NewState := fun b => b
  baseApply := fun b c => .ok (b + c)
  stateApply := fun s c => if c = 99 then .error 1 else .ok (s + c)
  TypeName := fun _ => [116]
  WriteTo := fun c => [c % 256]
  basePayloadIDs := fun _ => []
  changePayloadIDs := fun _ => []

/-- Witness for C2: a rejected change leaves the database untouched, and
an accepted change appends exactly one Binary entry. -/
theorem databaseApply_atomic_witness :
    databaseApply counterFactory true ⟨0, 0, [], 0⟩ 99 =
      (some (.state 1), (⟨0, 0, [], 0⟩ : Database Nat Nat)) ∧
    databaseApply counterFactory true ⟨0, 0, [], 0⟩ 5 =
      (none, (⟨0, 5, [(LogEntryTypeBinary, [1, 116, 5])], 1⟩ : Database Nat Nat)) := by
  constructor
  · exact (databaseApply_atomic counterFactory true ⟨0, 0, [], 0⟩ 99).1 1 rfl
  · have h := (databaseApply_atomic counterFactory true ⟨0, 0, [], 0⟩ 5).2 5 rfl rfl
    rw [h]
    rfl

/-! SHA-256.  The block AEAD nonce chain calls crypto/sha256.Sum256,
which is external to the repository; it is embedded here as the FIPS
180-4 compression pipeline over byte lists (bytes are naturals below
256, words are naturals below 2 ^ 32). -/

/-- Rotate a 32-bit word right by n. -/
def rotr32 (n x : Nat) : Nat := (x >>> n ||| x <<< (32 - n)) % 2 ^ 32

/-- Round constants of SHA-256, in decimal. -/
def sha256K : List Nat :=
  [1116352408, 1899447441, 3049323471, 3921009573, 961987163, 1508970993,
   2453635748, 2870763221, 3624381080, 310598401, 607225278, 1426881987,
   1925078388, 2162078206, 2614888103, 3248222580, 3835390401, 4022224774,
   264347078, 604807628, 770255983, 1249150122, 1555081692, 1996064986,
   2554220882, 2821834349, 2952996808, 3210313671, 3336571891, 3584528711,
   113926993, 338241895, 666307205, 773529912, 1294757372, 1396182291,
   1695183700, 1986661051, 2177026350, 2456956037, 2730485921, 2820302411,
   3259730800, 3345764771, 3516065817, 3600352804, 4094571909, 275423344,
   430227734, 506948616, 659060556, 883997877, 958139571, 1322822218,
   1537002063, 1747873779, 1955562222, 2024104815, 2227730452, 2361852424,
   2428436474, 2756734187, 3204031479, 3329325298]

/-- Initial hash value of SHA-256, in decimal. -/
def sha256H0 : List Nat :=
  [1779033703, 3144134277, 1013904242, 2773480762, 1359893119, 2600822924,
   528734635, 1541459225]

/-- Big sigma-0 word function. -/
def bigSigma0 (x : Nat) : Nat := rotr32 2 x ^^^ rotr32 13 x ^^^ rotr32 22 x

/-- Big sigma-1 word function. -/
def bigSigma1 (x : Nat) : Nat := rotr32 6 x ^^^ rotr32 11 x ^^^ rotr32 25 x

/-- Small sigma-0 word function. -/
def smallSigma0 (x : Nat) : Nat := rotr32 7 x ^^^ rotr32 18 x ^^^ x >>> 3

/-- Small sigma-1 word function. -/
def smallSigma1 (x : Nat) : Nat := rotr32 17 x ^^^ rotr32 19 x ^^^ x >>> 10

/-- Choose word function. -/
def shaCh (x y z : Nat) : Nat := x &&& y ^^^ (x ^^^ 0xffffffff) &&& z

/-- Majority word function. -/
def shaMaj (x y z : Nat) : Nat := x &&& y ^^^ x &&& z ^^^ y &&& z

/-- Merkle-Damgard padding: 0x80, zeros to 56 mod 64, 8-byte big-endian
bit length. -/
def sha256Pad (m : List Nat) : List Nat :=
  m ++ [0x80] ++ List.replicate ((119 - m.length % 64) % 64) 0 ++
    [m.length * 8 / 2 ^ 56 % 256, m.length * 8 / 2 ^ 48 % 256, m.length * 8 / 2 ^ 40 % 256,
     m.length * 8 / 2 ^ 32 % 256, m.length * 8 / 2 ^ 24 % 256, m.length * 8 / 2 ^ 16 % 256,
     m.length * 8 / 2 ^ 8 % 256, m.length * 8 % 256]

/-- Split a padded message into 64-byte blocks. -/
def sha256Blocks (l : List Nat) : List (List Nat) :=
  (List.range (l.length / 64)).map fun i => (l.drop (64 * i)).take 64

/-- Big-endian 4-byte words of a block. -/
def wordsBE (l : List Nat) : List Nat :=
  (List.range (l.length / 4)).map fun i =>
    uint32BE (l.getD (4 * i) 0) (l.getD (4 * i + 1) 0) (l.getD (4 * i + 2) 0) (l.getD (4 * i + 3) 0)

/-- Message schedule of 64 words. -/
def sha256Schedule (m : List Nat) : List Nat :=
  (List.range 64).foldl
    (fun w t =>
      if t < 16 then w ++ [m.getD t 0]
      else w ++ [(smallSigma1 (w.getD (t - 2) 0) + w.getD (t - 7) 0 +
                  smallSigma0 (w.getD (t - 15) 0) + w.getD (t - 16) 0) % 2 ^ 32])
    []

/-- One compression round application over the eight working words. -/
def sha256Compress (h : List Nat) (block : List Nat) : List Nat :=
  let w := sha256Schedule (wordsBE block)
  let s :=
    (List.range 64).foldl
      (fun (st : Nat × Nat × Nat × Nat × Nat × Nat × Nat × Nat) t =>
        let t1 := (st.2.2.2.2.2.2.2 + bigSigma1 st.2.2.2.2.1 +
                   shaCh st.2.2.2.2.1 st.2.2.2.2.2.1 st.2.2.2.2.2.2.1 +
                   sha256K.getD t 0 + w.getD t 0) % 2 ^ 32
        let t2 := (bigSigma0 st.1 + shaMaj st.1 st.2.1 st.2.2.1) % 2 ^ 32
        ((t1 + t2) % 2 ^ 32, st.1, st.2.1, st.2.2.1, (st.2.2.2.1 + t1) % 2 ^ 32,
         st.2.2.2.2.1, st.2.2.2.2.2.1, st.2.2.2.2.2.2.1))
      (h.getD 0 0, h.getD 1 0, h.getD 2 0, h.getD 3 0,
       h.getD 4 0, h.getD 5 0, h.getD 6 0, h.getD 7 0)
  [(h.getD 0 0 + s.1) % 2 ^ 32, (h.getD 1 0 + s.2.1) % 2 ^ 32,
   (h.getD 2 0 + s.2.2.1) % 2 ^ 32, (h.getD 3 0 + s.2.2.2.1) % 2 ^ 32,
   (h.getD 4 0 + s.2.2.2.2.1) % 2 ^ 32, (h.getD 5 0 + s.2.2.2.2.2.1) % 2 ^ 32,
   (h.getD 6 0 + s.2.2.2.2.2.2.1) % 2 ^ 32, (h.getD 7 0 + s.2.2.2.2.2.2.2) % 2 ^ 32]

/-- SHA-256 digest of a byte list, as crypto/sha256.Sum256. -/
def sha256 (m : List Nat) : List Nat :=
  (((sha256Blocks (sha256Pad m)).foldl sha256Compress sha256H0).map putUint32BE).flatten

/-! Authenticated encryption.  AES-256-GCM comes from crypto/aes and
crypto/cipher, outside this repository, so it enters the embedding as an
abstract authenticated cipher with the ideal-AEAD laws the spec relies
on. -/

/-- Modelled from the spec: an AEAD in the sense of cipher.NewGCM over an
AES key.  Seal appends a 16-byte tag; Open succeeds exactly on outputs of
Seal for the same key and nonce, and a ciphertext authenticates under
exactly one key (ideal authenticity). -/
structure AEAD (K : Type) where
  Seal : K → List Nat → List Nat → List Nat
  Open : K → List Nat → List Nat → Option (List Nat)
  seal_length : ∀ k n p, (Seal k n p).length = p.length + 16
  open_seal : ∀ k n p, Open k n (Seal k n p) = some p
  open_eq_seal : ∀ k n c p, Open k n c = some p → c = Seal k n p
  seal_key_inj : ∀ k1 n1 p1 k2 n2 p2, Seal k1 n1 p1 = Seal k2 n2 p2 → k1 = k2

/-- Injective numeric code of a byte list, used by the concrete witness
cipher. -/
def encodeList : List Nat → Nat
  | [] => 0
  | a :: l => Nat.pair a (encodeList l) + 1

theorem encodeList_inj : ∀ l1 l2 : List Nat, encodeList l1 = encodeList l2 → l1 = l2
  | [], [], _ => rfl
  | [], a :: l, h => by simp [encodeList] at h
  | a :: l, [], h => by simp [encodeList] at h
  | a :: l1, b :: l2, h => by
    simp only [encodeList, Nat.add_right_cancel_iff, Nat.pair_eq_pair] at h
    rw [h.1, encodeList_inj l1 l2 h.2]

/-- Seal of the concrete witness cipher: the plaintext followed by a
16-element tag whose first element codes key, nonce and plaintext. -/
def toySeal (k : Nat) (n p : List Nat) : List Nat :=
  p ++ Nat.pair k (Nat.pair (encodeList n) (encodeList p)) :: List.replicate 15 0

/-- Open of the concrete witness cipher: strict inverse of toySeal. -/
def toyOpen (k : Nat) (n c : List Nat) : Option (List Nat) :=
  if 16 ≤ c.length ∧ c = toySeal k n (c.take (c.length - 16)) then
    some (c.take (c.length - 16))
  else none

theorem toySeal_length (k : Nat) (n p : List Nat) : (toySeal k n p).length = p.length + 16 := by
  simp [toySeal]

theorem toySeal_take (k : Nat) (n p : List Nat) :
    (toySeal k n p).take ((toySeal k n p).length - 16) = p := by
  rw [toySeal_length]
  simp only [Nat.add_sub_cancel, toySeal]
  exact List.take_left p _

/-- Concrete AEAD instance over numeric keys satisfying the ideal laws,
used for witnesses and counterexamples. -/
def toyAEAD : AEAD Nat where
  Seal := toySeal
  Open := toyOpen
  seal_length := toySeal_length
  open_seal := by
    intro k n p
    rw [toyOpen, if_pos]
    · rw [toySeal_take]
    · refine ⟨by rw [toySeal_length]; omega, ?_⟩
      rw [toySeal_take]
  open_eq_seal := by
    intro k n c p h
    rw [toyOpen] at h
    split at h
    · rename_i hc
      obtain ⟨rfl⟩ := Option.some_inj.mp h
      exact hc.2
    · exact absurd h (by simp)
  seal_key_inj := by
    intro k1 n1 p1 k2 n2 p2 h
    have hlen : p1.length = p2.length := by
      have h1 := toySeal_length k1 n1 p1
      have h2 := toySeal_length k2 n2 p2
      rw [h] at h1
      omega
    obtain ⟨-, htag⟩ := List.append_inj h hlen
    have := (List.cons_eq_cons.mp htag).1
    exact ((Nat.pair_eq_pair.mp this).1)

/-! Block-chained AEAD for base and payload files (io/crypto:
BlockWriter, BlockReader). -/

/-- Plaintext block size of the block AEAD (crypto.BlockSize). -/
def BlockSize : Nat := 4096

/-- Little-endian two-byte frame of a ciphertext length; Go first casts
the length to uint16, truncating it to 16 bits. -/
def putUint16LE (v : Nat) : List Nat := [v % 256, v / 256 % 256]

/-- BlockWriter.advanceNonce: the last NonceSize (12) of the 32 sha256
digest bytes of the current nonce. -/
def writerAdvanceNonce (n : List Nat) : List Nat := (sha256 n).drop (32 - 12)

/-- BlockReader.advanceNonce, textually identical to the writer's. -/
def readerAdvanceNonce (n : List Nat) : List Nat := (sha256 n).drop (32 - 12)

/-- Mutable state of a BlockWriter: current nonce, whether the initial
nonce has been emitted, the plaintext buffer, and the bytes written to
the underlying file so far. -/
structure BlockWriterState where
  nonce : List Nat
  nonceWritten : Bool
  buffer : List Nat
  out : List Nat
deriving DecidableEq

/-- NewBlockWriter over the nonce the nonce source returned. -/
def newBlockWriter (n0 : List Nat) : BlockWriterState :=
  ⟨n0, false, [], []⟩

/-- BlockWriter.Write: emit the nonce on first use, append the data to
the buffer, and if the buffer reached BlockSize seal exactly one block of
BlockSize bytes, emit its two-byte little-endian ciphertext length and
the ciphertext, and advance the nonce.  (The source checks the threshold
once per call, not in a loop.) -/
def blockWrite {K : Type} (A : AEAD K) (key : K) (st : BlockWriterState)
    (data : List Nat) : BlockWriterState :=
  let st1 := if st.nonceWritten then st
             else { st with out := st.out ++ st.nonce, nonceWritten := true }
  let buf := st1.buffer ++ data
  if BlockSize ≤ buf.length then
    let ct := A.Seal key st1.nonce (buf.take BlockSize)
    { nonce := writerAdvanceNonce st1.nonce, nonceWritten := true,
      buffer := buf.drop BlockSize,
      out := st1.out ++ putUint16LE ct.length ++ ct }
  else { st1 with buffer := buf }

/-- BlockWriter.Close: seal and emit the trailing partial block if the
buffer is nonempty; returns the full file bytes. -/
def blockClose {K : Type} (A : AEAD K) (key : K) (st : BlockWriterState) : List Nat :=
  if 0 < st.buffer.length then
    let ct := A.Seal key st.nonce st.buffer
    st.out ++ putUint16LE ct.length ++ ct
  else st.out

/-- Errors of the block reader. -/
inductive BlockReadError where
  | nonceRead
  | sizeRead
  | cipherTextRead
  | decrypt
  | fuel
deriving DecidableEq

/-- Block loop of BlockReader.readBlock as iterated by BlockReader.Read
under io.ReadAll: read a two-byte little-endian length, the ciphertext,
open it with the current nonce, advance the nonce and continue; end of
stream between frames is a clean EOF.  The fuel argument bounds the
iteration by the stream length. -/
def readBlocksFuel {K : Type} (A : AEAD K) (key : K) :
    Nat → List Nat → List Nat → Except BlockReadError (List Nat)
  | _, _, [] => .ok []
  | 0, _, _ :: _ => .error .fuel
  | fuel + 1, nonce, b0 :: rest =>
    match rest with
    | [] => .error .sizeRead
    | b1 :: rest1 =>
      let size := b0 + b1 * 256
      if rest1.length < size then .error .cipherTextRead
      else
        match A.Open key nonce (rest1.take size) with
        | none => .error .decrypt
        | some p =>
          (readBlocksFuel A key fuel (readerAdvanceNonce nonce) (rest1.drop size)).map
            fun q => p ++ q

/-- BlockReader read to end of stream: read the 12-byte nonce once, then
every block. -/
def blockReadAll {K : Type} (A : AEAD K) (key : K) (s : List Nat) :
    Except BlockReadError (List Nat) :=
  if s.length < 12 then .error .nonceRead
  else readBlocksFuel A key s.length (s.take 12) (s.drop 12)

/-- Blocks a BlockWriter seals while processing a sequence of Write
calls, together with the plaintext left in its buffer afterwards. -/
def writerBlocks (buffer : List Nat) : List (List Nat) → List (List Nat) × List Nat
  | [] => ([], buffer)
  | d :: ds =>
    let buf := buffer ++ d
    if BlockSize ≤ buf.length then
      let r := writerBlocks (buf.drop BlockSize) ds
      (buf.take BlockSize :: r.1, r.2)
    else writerBlocks buf ds

/-- Full list of blocks a writer run seals, the trailing partial block
included. -/
def allWriterBlocks (chunks : List (List Nat)) : List (List Nat) :=
  (writerBlocks [] chunks).1 ++
    (if 0 < (writerBlocks [] chunks).2.length then [(writerBlocks [] chunks).2] else [])

/-- Frame stream of a list of plaintext blocks sealed under the chained
nonces: every block contributes its two-byte length field and its
ciphertext, the nonce advancing once per block. -/
def sealFrames {K : Type} (A : AEAD K) (key : K) (nonce : List Nat) :
    List (List Nat) → List Nat
  | [] => []
  | b :: bs =>
    let ct := A.Seal key nonce b
    putUint16LE ct.length ++ ct ++ sealFrames A key (writerAdvanceNonce nonce) bs

theorem sealFrames_append {K : Type} (A : AEAD K) (key : K) (xs : List (List Nat)) :
    ∀ (nonce : List Nat) (ys : List (List Nat)),
      sealFrames A key nonce (xs ++ ys) =
        sealFrames A key nonce xs ++ sealFrames A key (writerAdvanceNonce^[xs.length] nonce) ys := by
  induction xs with
  | nil => intro nonce ys; simp [sealFrames]
  | cons b bs ih =>
    intro nonce ys
    simp only [List.cons_append, sealFrames, List.length_cons, Function.iterate_succ_apply,
      List.append_eq]
    rw [ih (writerAdvanceNonce nonce) ys]
    simp [List.append_assoc]

theorem blockWrite_foldl {K : Type} (A : AEAD K) (key : K) (ds : List (List Nat)) :
    ∀ (nonce buffer out : List Nat),
      ds.foldl (blockWrite A key) ⟨nonce, true, buffer, out⟩ =
        ⟨writerAdvanceNonce^[(writerBlocks buffer ds).1.length] nonce, true,
         (writerBlocks buffer ds).2,
         out ++ sealFrames A key nonce (writerBlocks buffer ds).1⟩ := by
  induction ds with
  | nil =>
    intro nonce buffer out
    simp [writerBlocks, sealFrames]
  | cons d ds ih =>
    intro nonce buffer out
    simp only [List.foldl_cons, writerBlocks]
    by_cases hb : BlockSize ≤ (buffer ++ d).length
    · have hb2 : BlockSize ≤ buffer.length + d.length := by
        rw [← List.length_append]; exact hb
      have hstep : blockWrite A key ⟨nonce, true, buffer, out⟩ d =
          ⟨writerAdvanceNonce nonce, true, (buffer ++ d).drop BlockSize,
           out ++ putUint16LE (A.Seal key nonce ((buffer ++ d).take BlockSize)).length ++
             A.Seal key nonce ((buffer ++ d).take BlockSize)⟩ := by
        simp [blockWrite, hb2]
      rw [hstep, ih]
      simp only [if_pos hb, List.length_cons, Function.iterate_succ_apply, sealFrames,
        List.append_assoc]
    · have hb2 : ¬ BlockSize ≤ buffer.length + d.length := by
        rw [← List.length_append]; exact hb
      have hstep : blockWrite A key ⟨nonce, true, buffer, out⟩ d =
          ⟨nonce, true, buffer ++ d, out⟩ := by
        simp [blockWrite, hb2]
      rw [hstep, ih]
      simp only [if_neg hb]

theorem writerBlocks_flatten (ds : List (List Nat)) :
    ∀ buffer : List Nat,
      (writerBlocks buffer ds).1.flatten ++ (writerBlocks buffer ds).2 =
        buffer ++ ds.flatten := by
  induction ds with
  | nil => intro buffer; simp [writerBlocks]
  | cons d ds ih =>
    intro buffer
    simp only [writerBlocks, List.flatten_cons]
    by_cases hb : BlockSize ≤ (buffer ++ d).length
    · rw [if_pos hb]
      simp only [List.flatten_cons, List.append_assoc, ih]
      rw [← List.append_assoc (List.take BlockSize (buffer ++ d)), List.take_append_drop]
      simp [List.append_assoc]
    · rw [if_neg hb, ih]
      simp [List.append_assoc]

theorem writerBlocks_sizes (ds : List (List Nat)) :
    ∀ buffer : List Nat, ∀ b ∈ (writerBlocks buffer ds).1, b.length = BlockSize := by
  induction ds with
  | nil => intro buffer b hb; simp [writerBlocks] at hb
  | cons d ds ih =>
    intro buffer b hb
    simp only [writerBlocks] at hb
    by_cases hl : BlockSize ≤ (buffer ++ d).length
    · rw [if_pos hl] at hb
      rcases List.mem_cons.mp hb with h | h
      · rw [h, List.length_take]
        omega
      · exact ih _ b h
    · rw [if_neg hl] at hb
      exact ih _ b hb

theorem readBlocksFuel_sealFrames {K : Type} (A : AEAD K) (key : K) (bs : List (List Nat)) :
    ∀ (nonce : List Nat) (fuel : Nat), (sealFrames A key nonce bs).length ≤ fuel →
      (∀ b ∈ bs, b.length + 16 < 2 ^ 16) →
      readBlocksFuel A key fuel nonce (sealFrames A key nonce bs) = .ok bs.flatten := by
  induction bs with
  | nil =>
    intro nonce fuel _ _
    show readBlocksFuel A key fuel nonce [] = Except.ok [].flatten
    cases fuel <;> rfl
  | cons b bs ih =>
    intro nonce fuel hfuel hsz
    have hct : (A.Seal key nonce b).length = b.length + 16 := A.seal_length key nonce b
    have hlt : (A.Seal key nonce b).length < 2 ^ 16 := by
      rw [hct]; exact hsz b (by simp)
    have hshape : sealFrames A key nonce (b :: bs) =
        (A.Seal key nonce b).length % 256 :: (A.Seal key nonce b).length / 256 % 256 ::
          (A.Seal key nonce b ++ sealFrames A key (writerAdvanceNonce nonce) bs) := by
      simp [sealFrames, putUint16LE]
    obtain ⟨f, rfl⟩ : ∃ f, fuel = f + 1 := by
      rw [hshape] at hfuel
      cases fuel with
      | zero => simp at hfuel
      | succ f => exact ⟨f, rfl⟩
    rw [hshape, readBlocksFuel]
    have hsize : (A.Seal key nonce b).length % 256 +
        (A.Seal key nonce b).length / 256 % 256 * 256 = (A.Seal key nonce b).length := by
      omega
    simp only [hsize]
    have htk : (A.Seal key nonce b ++ sealFrames A key (writerAdvanceNonce nonce) bs).take
        (A.Seal key nonce b).length = A.Seal key nonce b := List.take_left _ _
    have hdp : (A.Seal key nonce b ++ sealFrames A key (writerAdvanceNonce nonce) bs).drop
        (A.Seal key nonce b).length = sealFrames A key (writerAdvanceNonce nonce) bs :=
      List.drop_left _ _
    have hnl : ¬ (A.Seal key nonce b ++
        sealFrames A key (writerAdvanceNonce nonce) bs).length < (A.Seal key nonce b).length := by
      rw [List.length_append]
      omega
    rw [if_neg hnl, htk, A.open_seal key nonce b, hdp]
    have hfl : (sealFrames A key (writerAdvanceNonce nonce) bs).length ≤ f := by
      rw [hshape] at hfuel
      simp only [List.length_cons, List.length_append] at hfuel
      omega
    have hrr : readerAdvanceNonce nonce = writerAdvanceNonce nonce := rfl
    rw [hrr, ih (writerAdvanceNonce nonce) f hfl fun x hx => hsz x (by simp [hx])]
    simp only [List.flatten_cons]
    rfl

theorem readBlocksFuel_wrong_key {K : Type} (A : AEAD K) (key key2 : K) (hk : key2 ≠ key)
    (b : List Nat) (bs : List (List Nat)) (nonce : List Nat) (fuel : Nat)
    (hfuel : (sealFrames A key nonce (b :: bs)).length ≤ fuel)
    (hlen : b.length + 16 < 2 ^ 16) :
    readBlocksFuel A key2 fuel nonce (sealFrames A key nonce (b :: bs)) = .error .decrypt := by
  have hct : (A.Seal key nonce b).length = b.length + 16 := A.seal_length key nonce b
  have hshape : sealFrames A key nonce (b :: bs) =
      (A.Seal key nonce b).length % 256 :: (A.Seal key nonce b).length / 256 % 256 ::
        (A.Seal key nonce b ++ sealFrames A key (writerAdvanceNonce nonce) bs) := by
    simp [sealFrames, putUint16LE]
  obtain ⟨f, rfl⟩ : ∃ f, fuel = f + 1 := by
    rw [hshape] at hfuel
    cases fuel with
    | zero => simp at hfuel
    | succ f => exact ⟨f, rfl⟩
  rw [hshape, readBlocksFuel]
  have hsize : (A.Seal key nonce b).length % 256 +
      (A.Seal key nonce b).length / 256 % 256 * 256 = (A.Seal key nonce b).length := by
    omega
  simp only [hsize]
  have htk : (A.Seal key nonce b ++ sealFrames A key (writerAdvanceNonce nonce) bs).take
      (A.Seal key nonce b).length = A.Seal key nonce b := List.take_left _ _
  have hnl : ¬ (A.Seal key nonce b ++
      sealFrames A key (writerAdvanceNonce nonce) bs).length < (A.Seal key nonce b).length := by
    rw [List.length_append]
    omega
  rw [if_neg hnl, htk]
  have hopen : A.Open key2 nonce (A.Seal key nonce b) = none := by
    cases hop : A.Open key2 nonce (A.Seal key nonce b) with
    | none => rfl
    | some p =>
      have := A.open_eq_seal key2 nonce _ p hop
      exact absurd (A.seal_key_inj key nonce b key2 nonce p this) fun h => hk h.symm
  rw [hopen]

theorem blockWrite_first {K : Type} (A : AEAD K) (key : K) (n0 c : List Nat) :
    blockWrite A key (newBlockWriter n0) c = blockWrite A key ⟨n0, true, [], n0⟩ c := by
  simp [blockWrite, newBlockWriter]

theorem blockRun_out {K : Type} (A : AEAD K) (key : K) (n0 : List Nat)
    (chunks : List (List Nat)) (hne : chunks ≠ []) :
    chunks.foldl (blockWrite A key) (newBlockWriter n0) =
      ⟨writerAdvanceNonce^[(writerBlocks [] chunks).1.length] n0, true,
       (writerBlocks [] chunks).2,
       n0 ++ sealFrames A key n0 (writerBlocks [] chunks).1⟩ := by
  obtain ⟨c, cs, rfl⟩ : ∃ c cs, chunks = c :: cs := by
    cases chunks with
    | nil => exact absurd rfl hne
    | cons c cs => exact ⟨c, cs, rfl⟩
  rw [List.foldl_cons, blockWrite_first]
  have h := blockWrite_foldl A key (c :: cs) n0 [] n0
  rw [List.foldl_cons] at h
  exact h

theorem blockRun_close {K : Type} (A : AEAD K) (key : K) (n0 : List Nat)
    (chunks : List (List Nat)) (hne : chunks ≠ []) :
    blockClose A key (chunks.foldl (blockWrite A key) (newBlockWriter n0)) =
      n0 ++ sealFrames A key n0 (allWriterBlocks chunks) := by
  rw [blockRun_out A key n0 chunks hne]
  simp only [blockClose, allWriterBlocks]
  by_cases ht : 0 < (writerBlocks [] chunks).2.length
  · rw [if_pos ht, if_pos ht, sealFrames_append]
    simp [sealFrames, List.append_assoc]
  · rw [if_neg ht, if_neg ht]
    simp

/-- Claim C4 (amended): block AEAD round-trip.  For every ideal AEAD,
key, 12-byte initial nonce and sequence of Write calls followed by
Close, provided at least one Write call happened (the nonce is emitted
lazily on first Write) and the plaintext left in the buffer at Close
keeps the trailing ciphertext below 2 ^ 16 bytes (its length field is a
uint16), reading the file with the same key yields exactly the original
plaintext; and when the plaintext is nonempty, reading with any other
key fails with the propagated decrypt error (BlockReader does not map it
to the ErrInvalidKey sentinel). -/
theorem blockWriter_blockReader_roundtrip {K : Type} (A : AEAD K) (key : K)
    (n0 : List Nat) (chunks : List (List Nat))
    (h12 : n0.length = 12) (hne : chunks ≠ [])
    (htrail :
      (chunks.foldl (blockWrite A key) (newBlockWriter n0)).buffer.length + 16 < 2 ^ 16) :
    blockReadAll A key (blockClose A key (chunks.foldl (blockWrite A key) (newBlockWriter n0))) =
      .ok chunks.flatten ∧
    (chunks.flatten ≠ [] → ∀ key2, key2 ≠ key →
      blockReadAll A key2
          (blockClose A key (chunks.foldl (blockWrite A key) (newBlockWriter n0))) =
        .error .decrypt) := by
  have hbuf : (chunks.foldl (blockWrite A key) (newBlockWriter n0)).buffer =
      (writerBlocks [] chunks).2 := by
    rw [blockRun_out A key n0 chunks hne]
  rw [hbuf] at htrail
  have hsizes : ∀ b ∈ allWriterBlocks chunks, b.length + 16 < 2 ^ 16 := by
    intro b hb
    rcases List.mem_append.mp hb with h | h
    · rw [writerBlocks_sizes chunks [] b h]
      decide
    · by_cases ht : 0 < (writerBlocks [] chunks).2.length
      · rw [if_pos ht] at h
        rw [List.mem_singleton.mp h]
        exact htrail
      · rw [if_neg ht] at h
        simp at h
  have hflat : (allWriterBlocks chunks).flatten = chunks.flatten := by
    have hw := writerBlocks_flatten chunks []
    simp only [List.nil_append] at hw
    simp only [allWriterBlocks]
    by_cases ht : 0 < (writerBlocks [] chunks).2.length
    · rw [if_pos ht]
      simp only [List.flatten_append, List.flatten_cons, List.flatten_nil, List.append_nil]
      exact hw
    · rw [if_neg ht]
      have : (writerBlocks [] chunks).2 = [] := by
        cases hh : (writerBlocks [] chunks).2 with
        | nil => rfl
        | cons x xs => rw [hh] at ht; simp at ht
      rw [this, List.append_nil] at hw
      simpa using hw
  rw [blockRun_close A key n0 chunks hne]
  have hlen : ¬ (n0 ++ sealFrames A key n0 (allWriterBlocks chunks)).length < 12 := by
    rw [List.length_append, h12]
    omega
  have htk : (n0 ++ sealFrames A key n0 (allWriterBlocks chunks)).take 12 = n0 :=
    List.take_left' h12
  have hdp : (n0 ++ sealFrames A key n0 (allWriterBlocks chunks)).drop 12 =
      sealFrames A key n0 (allWriterBlocks chunks) := List.drop_left' h12
  have hfuel : (sealFrames A key n0 (allWriterBlocks chunks)).length ≤
      (n0 ++ sealFrames A key n0 (allWriterBlocks chunks)).length := by
    rw [List.length_append]
    omega
  constructor
  · rw [blockReadAll, if_neg hlen, htk, hdp,
      readBlocksFuel_sealFrames A key (allWriterBlocks chunks) n0 _ hfuel hsizes, hflat]
  · intro hnz key2 hk2
    obtain ⟨b, bs2, hcons⟩ : ∃ b bs2, allWriterBlocks chunks = b :: bs2 := by
      cases hh : allWriterBlocks chunks with
      | nil => rw [hh] at hflat; exact absurd hflat.symm hnz
      | cons b bs2 => exact ⟨b, bs2, rfl⟩
    rw [blockReadAll, if_neg hlen, htk, hdp, hcons]
    exact readBlocksFuel_wrong_key A key key2 hk2 b bs2 n0 _ (by rw [← hcons]; exact hfuel)
      (hsizes b (by rw [hcons]; simp))

/-- Witness for the amended C4 at a concrete run: a single Write of three
bytes under the concrete ideal cipher, read back with the right and a
wrong key. -/
theorem blockWriter_blockReader_roundtrip_witness :
    blockReadAll toyAEAD 0
        (blockClose toyAEAD 0
          ([[1, 2, 3]].foldl (blockWrite toyAEAD 0) (newBlockWriter (List.replicate 12 0)))) =
      .ok [1, 2, 3] ∧
    blockReadAll toyAEAD 1
        (blockClose toyAEAD 0
          ([[1, 2, 3]].foldl (blockWrite toyAEAD 0) (newBlockWriter (List.replicate 12 0)))) =
      .error .decrypt := by
  have h := blockWriter_blockReader_roundtrip toyAEAD 0 (List.replicate 12 0) [[1, 2, 3]]
    (by decide) (by decide) (by decide)
  exact ⟨h.1, h.2 (by decide) 1 (by decide)⟩

/-- Counterexample to C4 as stated: the empty plaintext delivered through
no Write call at all (exactly what Database.Apply does for an empty
payload source, since io.Copy never calls Write) produces a file that
does not read back as the empty plaintext: the reader fails reading the
absent nonce. -/
theorem blockWriter_roundtrip_counterexample :
    blockReadAll toyAEAD 0
        (blockClose toyAEAD 0
          (([] : List (List Nat)).foldl (blockWrite toyAEAD 0)
            (newBlockWriter (List.replicate 12 0)))) =
      .error .nonceRead ∧
    Except.error BlockReadError.nonceRead ≠
      Except.ok (([] : List (List Nat)).flatten) := by
  constructor
  · rfl
  · intro h
    exact Except.noConfusion h

/-- Claim C8 (amended): with no Write call at all the block writer
produces an empty file after Close — the nonce is emitted lazily on the
first Write call — while a single Write of zero bytes followed by Close
produces exactly the nonce bytes and nothing else. -/
theorem blockClose_no_write {K : Type} (A : AEAD K) (key : K) (n0 : List Nat) :
    blockClose A key
        (([] : List (List Nat)).foldl (blockWrite A key) (newBlockWriter n0)) = [] ∧
    blockClose A key ([[]].foldl (blockWrite A key) (newBlockWriter n0)) = n0 := by
  constructor
  · rfl
  · simp [blockWrite, blockClose, newBlockWriter, BlockSize]

/-- Counterexample to C8 as stated: after Close with no payload data
written the way Database.Apply writes it (io.Copy performs no Write call
on an empty source), the file is empty rather than the 12 nonce bytes. -/
theorem blockClose_no_write_counterexample :
    blockClose toyAEAD 0
        (([] : List (List Nat)).foldl (blockWrite toyAEAD 0)
          (newBlockWriter (List.replicate 12 0))) = [] ∧
    ([] : List Nat) ≠ List.replicate 12 0 := by
  exact ⟨rfl, by decide⟩

theorem sealFrames_nonce_chain {K : Type} (A : AEAD K) (key : K) (bs : List (List Nat)) :
    ∀ (j : Nat) (n0 : List Nat),
      sealFrames A key (writerAdvanceNonce^[j] n0) bs =
        ((List.enumFrom j bs).map fun p =>
          putUint16LE (A.Seal key (writerAdvanceNonce^[p.1] n0) p.2).length ++
            A.Seal key (writerAdvanceNonce^[p.1] n0) p.2).flatten := by
  induction bs with
  | nil => intro j n0; simp [sealFrames]
  | cons b bs ih =>
    intro j n0
    simp only [sealFrames, List.enumFrom, List.map_cons, List.flatten_cons]
    rw [← Function.iterate_succ_apply' writerAdvanceNonce j n0, ih (j + 1) n0]

/-- Claim C5 (amended): the block AEAD nonce chain.  The reader advances
nonces by the function textually identical to the writer's, and a writer
run seals block 0 with the file's initial nonce and block k with the
k-th iterate of the truncate-then-digest step (the last 12 bytes of the
sha256 digest of the previous 12-byte nonce).  This chain agrees with
the claim's closed form, the last 12 bytes of the k-fold full digest,
only for k below 2; see the counterexample. -/
theorem blockNonceChain {K : Type} (A : AEAD K) (key : K) (n0 : List Nat)
    (chunks : List (List Nat)) (hne : chunks ≠ []) :
    (∀ n, readerAdvanceNonce n = writerAdvanceNonce n) ∧
    blockClose A key (chunks.foldl (blockWrite A key) (newBlockWriter n0)) =
      n0 ++ ((List.enumFrom 0 (allWriterBlocks chunks)).map fun p =>
        putUint16LE (A.Seal key (writerAdvanceNonce^[p.1] n0) p.2).length ++
          A.Seal key (writerAdvanceNonce^[p.1] n0) p.2).flatten := by
  refine ⟨fun n => rfl, ?_⟩
  rw [blockRun_close A key n0 chunks hne]
  have h := sealFrames_nonce_chain A key (allWriterBlocks chunks) 0 n0
  simpa using h

/-- Witness for the amended C5 at a concrete single-block run. -/
theorem blockNonceChain_witness :
    blockClose toyAEAD 0
        ([[1, 2, 3]].foldl (blockWrite toyAEAD 0) (newBlockWriter (List.replicate 12 0))) =
      List.replicate 12 0 ++
        ((List.enumFrom 0 (allWriterBlocks [[1, 2, 3]])).map fun p =>
          putUint16LE (toyAEAD.Seal 0 (writerAdvanceNonce^[p.1] (List.replicate 12 0)) p.2).length ++
            toyAEAD.Seal 0 (writerAdvanceNonce^[p.1] (List.replicate 12 0)) p.2).flatten :=
  (blockNonceChain toyAEAD 0 (List.replicate 12 0) [[1, 2, 3]] (by decide)).2

set_option maxRecDepth 1000000 in
/-- Counterexample to C5 as stated: at k = 2, the nonce the code derives
(iterating truncate-then-digest) differs from the last 12 bytes of the
twice-iterated full sha256 digest of the initial 12-zero-byte nonce. -/
theorem blockNonceChain_counterexample :
    writerAdvanceNonce^[2] (List.replicate 12 0) ≠
      (sha256 (sha256 (List.replicate 12 0))).drop (32 - 12) := by
  decide

/-! Per-entry log AEAD (io/crypto: LogReader and its logEntry). -/

/-- Outcome of calling Reader() on an entry of the decrypting log
reader; Go can panic on a slice expression instead of returning. -/
inductive EntryReaderOutcome where
  | panicked
  | errInvalidKey
  | ok (plain : List Nat)
deriving DecidableEq

/-- logEntry.Reader of the decrypting log reader: read the whole inner
entry body, split it as data[:nonceSize], data[nonceSize:] with nonceSize
12, and open the ciphertext.  The second Go slice expression panics with
an out-of-range index when the body is shorter than 12 bytes (its lower
bound exceeds the slice length); an authentication failure is mapped to
ErrInvalidKey. -/
def logEntryReader {K : Type} (A : AEAD K) (key : K) (data : List Nat) : EntryReaderOutcome :=
  if data.length < 12 then .panicked
  else
    match A.Open key (data.take 12) (data.drop 12) with
    | none => .errInvalidKey
    | some p => .ok p

/-- Claim C10: a log entry body shorter than the 12-byte nonce size makes
the decrypting entry reader panic instead of returning an error, and the
error outcome (ErrInvalidKey) is only reachable for bodies of at least
12 bytes. -/
theorem logEntryReader_short_body_panics {K : Type} (A : AEAD K) (key : K) :
    (∀ data : List Nat, data.length < 12 → logEntryReader A key data = .panicked) ∧
    (∀ data : List Nat, logEntryReader A key data = .errInvalidKey → 12 ≤ data.length) := by
  constructor
  · intro data h
    simp [logEntryReader, h]
  · intro data h
    by_contra hlt
    rw [logEntryReader, if_pos (by omega)] at h
    exact EntryReaderOutcome.noConfusion h

/-- Witness for C10: a three-byte body panics; a twelve-byte body reaches
the ErrInvalidKey branch under the concrete cipher. -/
theorem logEntryReader_short_body_panics_witness :
    logEntryReader toyAEAD 0 [1, 2, 3] = .panicked ∧
    logEntryReader toyAEAD 0 (List.replicate 12 0) = .errInvalidKey := by
  constructor
  · exact (logEntryReader_short_body_panics toyAEAD 0).1 [1, 2, 3] (by decide)
  · decide

/-! Splice compactor (io/database.go SpliceDatabase; selectors from
io/file/option.go). -/

/-- Errors aborting the io-level splice: a selector error or a
base.Apply error. -/
inductive SpliceError (E : Type) where
  | sel (e : E)
  | applyBase (e : E)
deriving DecidableEq

/-- CountRebaseChangeSelectFunc: select exactly the changes whose log
index is below the count; never errors. -/
def CountRebaseChangeSelectFunc {C E : Type} (count : Nat) : C → Nat → Except E Bool :=
  fun _ logIndex => .ok (decide (logIndex < count))

/-- StaticRebaseChangeSelectFunc: constant selector (the splice default
is the constant false). -/
def StaticRebaseChangeSelectFunc {C E : Type} (value : Bool) : C → Nat → Except E Bool :=
  fun _ _ => .ok value

/-- Loop of io.SpliceDatabase over the decoded log entries.  While the
rebase flag holds the selector is consulted; selected changes are applied
to the base; at the first unselected change the base is written (once)
and that change and every later one is re-serialized to the new log;
after the loop the base is written if it never was.  The returned event
list records, in order, every argument the baseOrChangeWrittenFn callback
received: Sum.inl when the base was written to baseW, Sum.inr for every
change written to logW.  An error aborts the iteration, the events
already emitted standing for the bytes already streamed out. -/
def spliceLoop {B S C E : Type} (f : Factory B S C E) (sel : C → Nat → Except E Bool) :
    B → Nat → Bool → Bool → List C → Option (SpliceError E) × List (B ⊕ C)
  | base, _, _, baseWritten, [] =>
    if baseWritten then (none, []) else (none, [Sum.inl base])
  | base, logIndex, rebase, baseWritten, c :: cs =>
    if rebase then
      match sel c logIndex with
      | .error e => (some (.sel e), [])
      | .ok true =>
        match f.baseApply base c with
        | .error e => (some (.applyBase e), [])
        | .ok base1 => spliceLoop f sel base1 (logIndex + 1) true baseWritten cs
      | .ok false =>
        let pre : List (B ⊕ C) := if baseWritten then [] else [Sum.inl base]
        let r := spliceLoop f sel base (logIndex + 1) false true cs
        (r.1, pre ++ Sum.inr c :: r.2)
    else
      let pre : List (B ⊕ C) := if baseWritten then [] else [Sum.inl base]
      let r := spliceLoop f sel base (logIndex + 1) false true cs
      (r.1, pre ++ Sum.inr c :: r.2)

/-- io.SpliceDatabase: read the source base (a fresh factory base when
the base reader is absent), then run the loop over the decoded log (no
entries when the log reader is absent). -/
def ioSpliceDatabase {B S C E : Type} (f : Factory B S C E) (sel : C → Nat → Except E Bool)
    (baseR : Option B) (logR : Option (List C)) :
    Option (SpliceError E) × List (B ⊕ C) :=
  spliceLoop f sel (baseR.getD f.NewBase) 0 true false (logR.getD [])

/-- The base written to baseW during a splice: the first (and only)
Sum.inl event. -/
def writtenBase {B C : Type} (evs : List (B ⊕ C)) : Option B :=
  (evs.filterMap fun ev => ev.getLeft?).head?

/-- The changes written to logW during a splice, in order. -/
def writtenLog {B C : Type} (evs : List (B ⊕ C)) : List C :=
  evs.filterMap fun ev => ev.getRight?

/-- Replay loop of io.OpenDatabase: state.Apply every change in order,
aborting on the first error. -/
def replayChanges {B S C E : Type} (f : Factory B S C E) : S → List C → Except E S
  | s, [] => .ok s
  | s, c :: cs =>
    match f.stateApply s c with
    | .error e => .error e
    | .ok s1 => replayChanges f s1 cs

/-- io.OpenDatabase: read the base if present, build the state over it,
replay every log entry into it and count them. -/
def openDatabase {B S C E : Type} (f : Factory B S C E) (baseR : Option B)
    (logR : Option (List C)) : Except E (S × Nat) :=
  match replayChanges f (f.NewState (baseR.getD f.NewBase)) (logR.getD []) with
  | .error e => .error e
  | .ok s => .ok (s, (logR.getD []).length)

/-- Folding base.Apply over a list of changes, as the splice rebase phase
does. -/
def applyAllBase {B S C E : Type} (f : Factory B S C E) : B → List C → Except E B
  | b, [] => .ok b
  | b, c :: cs =>
    match f.baseApply b c with
    | .error e => .error e
    | .ok b1 => applyAllBase f b1 cs

theorem spliceLoop_after_flip {B S C E : Type} (f : Factory B S C E)
    (sel : C → Nat → Except E Bool) (cs : List C) :
    ∀ (base : B) (i : Nat),
      spliceLoop f sel base i false true cs = (none, cs.map Sum.inr) := by
  induction cs with
  | nil => intro base i; rfl
  | cons c cs ih =>
    intro base i
    simp only [spliceLoop, if_neg (Bool.false_ne_true), ih base (i + 1)]
    simp

theorem spliceLoop_count {B S C E : Type} (f : Factory B S C E) (k : Nat) (log : List C) :
    ∀ (base : B) (j : Nat),
      spliceLoop f (CountRebaseChangeSelectFunc k) base j true false log =
        match applyAllBase f base (log.take (k - j)) with
        | .error e => (some (.applyBase e), [])
        | .ok b1 => (none, Sum.inl b1 :: (log.drop (k - j)).map Sum.inr) := by
  induction log with
  | nil =>
    intro base j
    simp [spliceLoop, applyAllBase]
  | cons c cs ih =>
    intro base j
    by_cases hj : j < k
    · have hksub : k - j = (k - (j + 1)) + 1 := by omega
      have hsel : CountRebaseChangeSelectFunc (C := C) (E := E) k c j = .ok true := by
        simp [CountRebaseChangeSelectFunc, hj]
      rw [spliceLoop, if_pos rfl, hsel, hksub]
      simp only [List.take_succ_cons, List.drop_succ_cons, applyAllBase]
      cases hap : f.baseApply base c with
      | error e => rfl
      | ok base1 => exact ih base1 (j + 1)
    · have hksub : k - j = 0 := by omega
      have hsel : CountRebaseChangeSelectFunc (C := C) (E := E) k c j = .ok false := by
        simp [CountRebaseChangeSelectFunc]
        omega
      rw [spliceLoop, if_pos rfl, hsel, hksub]
      simp only [List.take_zero, List.drop_zero, applyAllBase]
      rw [spliceLoop_after_flip]
      simp

theorem replayChanges_applyAllBase {B S C E : Type} (f : Factory B S C E)
    (hcomm : ∀ b c, (f.baseApply b c).map f.NewState = f.stateApply (f.NewState b) c)
    (log : List C) :
    ∀ b : B, replayChanges f (f.NewState b) log = (applyAllBase f b log).map f.NewState := by
  induction log with
  | nil => intro b; rfl
  | cons c cs ih =>
    intro b
    rw [replayChanges, applyAllBase]
    cases hap : f.baseApply b c with
    | error e =>
      have hse : f.stateApply (f.NewState b) c = .error e := by
        rw [← hcomm, hap]
        rfl
      rw [hse]
      rfl
    | ok b1 =>
      have hse : f.stateApply (f.NewState b) c = .ok (f.NewState b1) := by
        rw [← hcomm, hap]
        rfl
      rw [hse]
      exact ih b1

theorem applyAllBase_append {B S C E : Type} (f : Factory B S C E) (xs : List C) :
    ∀ (ys : List C) (b : B),
      applyAllBase f b (xs ++ ys) =
        match applyAllBase f b xs with
        | .error e => .error e
        | .ok b1 => applyAllBase f b1 ys := by
  induction xs with
  | nil => intro ys b; rfl
  | cons x xs ih =>
    intro ys b
    rw [List.cons_append, applyAllBase, applyAllBase]
    cases f.baseApply b x with
    | error e => rfl
    | ok b1 => exact ih ys b1

theorem writtenBase_shape {B C : Type} (b : B) (cs : List C) :
    writtenBase (Sum.inl b :: cs.map Sum.inr) = some b := by
  simp [writtenBase]

theorem writtenLog_shape {B C : Type} (b : B) (cs : List C) :
    writtenLog (Sum.inl b :: cs.map Sum.inr) = cs := by
  simp only [writtenLog, List.filterMap_cons, Sum.getRight?]
  induction cs with
  | nil => rfl
  | cons x xs ih => simpa using ih

/-- Claim C1: splice equivalence.  For every database (any optional base,
any log of changes) whose open succeeds, and any CountRebaseChangeSelectFunc
selector, the splice succeeds, writes exactly one base (the source base
with the first k changes folded in) and the remaining changes to the new
log, and opening the spliced database yields the same state.  The
hypothesis hcomm is the coherence the spec presumes of the application
types: constructing a state over an applied base agrees with applying the
change to the constructed state. -/
theorem spliceDatabase_open_equivalence {B S C E : Type} (f : Factory B S C E)
    (hcomm : ∀ b c, (f.baseApply b c).map f.NewState = f.stateApply (f.NewState b) c)
    (baseR : Option B) (logR : Option (List C)) (k : Nat) (s : S) (n : Nat)
    (hopen : openDatabase f baseR logR = .ok (s, n)) :
    (ioSpliceDatabase f (CountRebaseChangeSelectFunc k) baseR logR).1 = none ∧
    ∃ b1, writtenBase (ioSpliceDatabase f (CountRebaseChangeSelectFunc k) baseR logR).2 =
        some b1 ∧
      openDatabase f (some b1)
          (some (writtenLog (ioSpliceDatabase f (CountRebaseChangeSelectFunc k) baseR logR).2)) =
        .ok (s, ((logR.getD []).drop k).length) := by
  have hrep : replayChanges f (f.NewState (baseR.getD f.NewBase)) (logR.getD []) = .ok s := by
    rw [openDatabase] at hopen
    cases hr : replayChanges f (f.NewState (baseR.getD f.NewBase)) (logR.getD []) with
    | error e => rw [hr] at hopen; exact Except.noConfusion hopen
    | ok s2 =>
      rw [hr] at hopen
      obtain ⟨h1, -⟩ := Prod.mk.injEq .. ▸ (Except.ok.injEq .. ▸ hopen)
      rw [h1]
  obtain ⟨bfull, hfull, hsts⟩ :
      ∃ bfull, applyAllBase f (baseR.getD f.NewBase) (logR.getD []) = .ok bfull ∧
        f.NewState bfull = s := by
    have h := replayChanges_applyAllBase f hcomm (logR.getD []) (baseR.getD f.NewBase)
    rw [hrep] at h
    cases hap : applyAllBase f (baseR.getD f.NewBase) (logR.getD []) with
    | error e => rw [hap] at h; exact Except.noConfusion h
    | ok b2 =>
      rw [hap] at h
      exact ⟨b2, rfl, (Except.ok.injEq .. ▸ h.symm)⟩
  obtain ⟨bk, hbk, hrest⟩ :
      ∃ bk, applyAllBase f (baseR.getD f.NewBase) ((logR.getD []).take k) = .ok bk ∧
        applyAllBase f bk ((logR.getD []).drop k) = .ok bfull := by
    have hsplit := applyAllBase_append f ((logR.getD []).take k) ((logR.getD []).drop k)
      (baseR.getD f.NewBase)
    rw [List.take_append_drop] at hsplit
    rw [hfull] at hsplit
    cases hap : applyAllBase f (baseR.getD f.NewBase) ((logR.getD []).take k) with
    | error e => rw [hap] at hsplit; exact Except.noConfusion hsplit
    | ok b2 =>
      rw [hap] at hsplit
      exact ⟨b2, rfl, hsplit.symm⟩
  have hloop := spliceLoop_count f k (logR.getD []) (baseR.getD f.NewBase) 0
  rw [Nat.sub_zero, hbk] at hloop
  have hio : ioSpliceDatabase f (CountRebaseChangeSelectFunc k) baseR logR =
      (none, Sum.inl bk :: ((logR.getD []).drop k).map Sum.inr) := by
    rw [ioSpliceDatabase, hloop]
  refine ⟨by rw [hio], bk, ?_, ?_⟩
  · rw [hio, writtenBase_shape]
  · rw [hio, writtenLog_shape, openDatabase]
    have hrep2 : replayChanges f (f.NewState bk) ((logR.getD []).drop k) =
        .ok (f.NewState bfull) := by
      rw [replayChanges_applyAllBase f hcomm _ bk, hrest]
      rfl
    simp only [Option.getD_some, hrep2, hsts]

/-- Counter application with total base and state apply, satisfying the
state-over-base coherence, for witness runs of the splice. -/
def addFactory : Factory Nat Nat Nat Nat where
  NewBase := 0
  NewState := fun b => b
  baseApply := fun b c => .ok (b + c)
  stateApply := fun s c => .ok (s + c)
  TypeName := fun _ => [116]
  WriteTo := fun c => [c % 256]
  basePayloadIDs := fun _ => []
  changePayloadIDs := fun _ => []

/-- Witness for C1: a concrete database with base 10 and log of three
increments, spliced with the count selector at k = 2. -/
theorem spliceDatabase_open_equivalence_witness :
    (ioSpliceDatabase addFactory (CountRebaseChangeSelectFunc 2) (some 10)
        (some [1, 2, 3])).1 = none ∧
    ∃ b1, writtenBase (ioSpliceDatabase addFactory (CountRebaseChangeSelectFunc 2) (some 10)
        (some [1, 2, 3])).2 = some b1 ∧
      openDatabase addFactory (some b1)
          (some (writtenLog (ioSpliceDatabase addFactory (CountRebaseChangeSelectFunc 2)
            (some 10) (some [1, 2, 3])).2)) =
        .ok (16, ((Option.getD (some [1, 2, 3]) []).drop 2).length) :=
  spliceDatabase_open_equivalence addFactory (fun _ _ => rfl) (some 10) (some [1, 2, 3]) 2 16 3
    rfl

/-! Filesystem splice (io/file/database.go SpliceDatabase,
deleteUnreferencedPayloads) over a value-level directory state. -/

/-- Contents of a database directory at the value level: the base file
(the Base it deserializes to, if present), the log (the changes it
decodes to, if present), the ids of the payload files present, and the
transient base.new and log.new files, each absent or present with the
content streamed into it so far. -/
structure DirState (B C : Type) where
  base : Option B
  log : Option (List C)
  payloads : List String
  newBase : Option (Option B)
  newLog : Option (List C)
deriving DecidableEq

/-- Errors of the file-level splice: ErrExisting on either temp file, or
the propagated io-level splice error. -/
inductive FileSpliceError (E : Type) where
  | existingNewBase
  | existingNewLog
  | io (e : SpliceError E)
deriving DecidableEq

/-- The payloadIDs slice the file-level splice callback collects: every
written base or change contributes its PayloadIDs in event order. -/
def collectPayloadIDs {B S C E : Type} (f : Factory B S C E) (evs : List (B ⊕ C)) :
    List String :=
  (evs.map fun ev =>
    match ev with
    | .inl b => f.basePayloadIDs b
    | .inr c => f.changePayloadIDs c).flatten

/-- deleteUnreferencedPayloads: the payload files whose id is in the
collected list survive; every other payload file is removed. -/
def deleteUnreferencedPayloads (payloads : List String) (ids : List String) : List String :=
  payloads.filter fun id => ids.contains id

/-- io/file SpliceDatabase: read meta, base and log; create base.new and
log.new exclusively (an existing temp file aborts with ErrExisting, the
second creation failing after the first file was already created); run
the io-level splice, streaming the written base and changes into the
temp files; a splice error leaves the temp files holding what was
streamed; on success delete the unreferenced payload files and then
replace base by base.new and log by log.new. -/
def fileSpliceDatabase {B S C E : Type} (f : Factory B S C E)
    (sel : C → Nat → Except E Bool) (d : DirState B C) :
    Option (FileSpliceError E) × DirState B C :=
  if d.newBase.isSome then (some .existingNewBase, d)
  else if d.newLog.isSome then (some .existingNewLog, { d with newBase := some none })
  else
    match (ioSpliceDatabase f sel d.base d.log).1 with
    | some e =>
      (some (.io e),
       { d with newBase := some (writtenBase (ioSpliceDatabase f sel d.base d.log).2),
                newLog := some (writtenLog (ioSpliceDatabase f sel d.base d.log).2) })
    | none =>
      (none,
       { base := writtenBase (ioSpliceDatabase f sel d.base d.log).2,
         log := some (writtenLog (ioSpliceDatabase f sel d.base d.log).2),
         payloads := deleteUnreferencedPayloads d.payloads
           (collectPayloadIDs f (ioSpliceDatabase f sel d.base d.log).2),
         newBase := none, newLog := none })

theorem spliceLoop_ok_shape {B S C E : Type} (f : Factory B S C E)
    (sel : C → Nat → Except E Bool) (log : List C) :
    ∀ (base : B) (i : Nat) (evs : List (B ⊕ C)),
      (spliceLoop f sel base i true false log).1 = none →
      (spliceLoop f sel base i true false log).2 = evs →
      ∃ (b1 : B) (cs1 : List C), evs = Sum.inl b1 :: cs1.map Sum.inr := by
  induction log with
  | nil =>
    intro base i evs _ hevs
    exact ⟨base, [], by simpa [spliceLoop] using hevs.symm⟩
  | cons c cs ih =>
    intro base i evs hok hevs
    rw [spliceLoop, if_pos rfl] at hok hevs
    cases hsel : sel c i with
    | error e => rw [hsel] at hok; exact Option.noConfusion hok
    | ok b =>
      cases b with
      | true =>
        rw [hsel] at hok hevs
        cases hap : f.baseApply base c with
        | error e => rw [hap] at hok; exact Option.noConfusion hok
        | ok base1 =>
          rw [hap] at hok hevs
          exact ih base1 (i + 1) evs hok hevs
      | false =>
        rw [hsel] at hevs
        rw [spliceLoop_after_flip f sel cs base (i + 1)] at hevs
        exact ⟨base, c :: cs, by simpa using hevs.symm⟩

theorem collectPayloadIDs_shape {B S C E : Type} (f : Factory B S C E) (b : B) (cs : List C) :
    collectPayloadIDs f (Sum.inl b :: cs.map Sum.inr) =
      f.basePayloadIDs b ++ (cs.map f.changePayloadIDs).flatten := by
  simp only [collectPayloadIDs, List.map_cons, List.flatten_cons, List.map_map]
  rfl

/-- The ids advertised, via PayloadIDs, by a written base and the changes
written to the new log. -/
def advertisedIDs {B S C E : Type} (f : Factory B S C E) (base : Option B) (log : List C) :
    List String :=
  (base.elim [] f.basePayloadIDs) ++ (log.map f.changePayloadIDs).flatten

/-- Claim C7: payload garbage-collection soundness.  After a successful
splice the payload files remaining in the directory all carry ids
advertised by the written base or by a change written to the new log,
and no payload file with an advertised id was deleted. -/
theorem spliceDatabase_payloadGC {B S C E : Type} (f : Factory B S C E)
    (sel : C → Nat → Except E Bool) (d : DirState B C)
    (hok : (fileSpliceDatabase f sel d).1 = none) :
    (∀ id ∈ (fileSpliceDatabase f sel d).2.payloads,
      id ∈ advertisedIDs f (fileSpliceDatabase f sel d).2.base
        (((fileSpliceDatabase f sel d).2.log).getD [])) ∧
    (∀ id ∈ d.payloads,
      id ∈ advertisedIDs f (fileSpliceDatabase f sel d).2.base
        (((fileSpliceDatabase f sel d).2.log).getD []) →
      id ∈ (fileSpliceDatabase f sel d).2.payloads) := by
  by_cases hnb : d.newBase.isSome
  · rw [fileSpliceDatabase, if_pos hnb] at hok
    exact Option.noConfusion hok
  by_cases hnl : d.newLog.isSome
  · rw [fileSpliceDatabase, if_neg hnb, if_pos hnl] at hok
    exact Option.noConfusion hok
  have hio1 : (ioSpliceDatabase f sel d.base d.log).1 = none := by
    rw [fileSpliceDatabase, if_neg hnb, if_neg hnl] at hok
    cases hr : (ioSpliceDatabase f sel d.base d.log).1 with
    | some e =>
      rw [hr] at hok
      simp at hok
    | none => rfl
  obtain ⟨b1, cs1, hshape⟩ :=
    spliceLoop_ok_shape f sel (d.log.getD []) (d.base.getD f.NewBase) 0
      (ioSpliceDatabase f sel d.base d.log).2
      hio1 rfl
  have hresult : fileSpliceDatabase f sel d =
      (none,
       { base := some b1, log := some cs1,
         payloads := deleteUnreferencedPayloads d.payloads
           (f.basePayloadIDs b1 ++ (cs1.map f.changePayloadIDs).flatten),
         newBase := none, newLog := none }) := by
    rw [fileSpliceDatabase, if_neg hnb, if_neg hnl, hio1, hshape, writtenBase_shape,
      writtenLog_shape, collectPayloadIDs_shape]
  have hadv : advertisedIDs f (fileSpliceDatabase f sel d).2.base
      (((fileSpliceDatabase f sel d).2.log).getD []) =
      f.basePayloadIDs b1 ++ (cs1.map f.changePayloadIDs).flatten := by
    rw [hresult]
    rfl
  rw [hadv, hresult]
  constructor
  · intro id hid
    simp only [deleteUnreferencedPayloads, List.mem_filter] at hid
    simpa using hid.2
  · intro id hid hadvm
    simp only [deleteUnreferencedPayloads, List.mem_filter]
    exact ⟨hid, by simpa using hadvm⟩

/-- Factory whose base advertises payload id b456 and whose change 1
advertises payload id p1, for concrete splice runs. -/
def payloadFactory : Factory Nat Nat Nat Nat where
  NewBase := 0
  NewState := fun b => b
  baseApply := fun b c => .ok (b + c)
  stateApply := fun s c => .ok (s + c)
  TypeName := fun _ => [116]
  WriteTo := fun c => [c % 256]
  basePayloadIDs := fun _ => ["b456"]
  changePayloadIDs := fun c => if c = 1 then ["p1"] else []

/-- Witness for C7: in a concrete splice with no rebase, the payload file
p1 advertised by a change written to the new log survives the garbage
collection. -/
theorem spliceDatabase_payloadGC_witness :
    "p1" ∈ (fileSpliceDatabase payloadFactory (StaticRebaseChangeSelectFunc false)
      ⟨some 0, some [1, 2], ["p1", "orphan"], none, none⟩).2.payloads :=
  (spliceDatabase_payloadGC payloadFactory (StaticRebaseChangeSelectFunc false)
    ⟨some 0, some [1, 2], ["p1", "orphan"], none, none⟩ rfl).2 "p1"
    (by decide) (by decide)

/-- Claim C6 (amended): a rebase-selector error aborts the splice before
any rename or payload deletion — base, log and payload files are exactly
as before — but only after base.new and log.new have been created; the
two temp files are left behind in the directory. -/
theorem spliceDatabase_selector_error_frame {B S C E : Type} (f : Factory B S C E)
    (sel : C → Nat → Except E Bool) (d : DirState B C) (e : E)
    (herr : (fileSpliceDatabase f sel d).1 = some (.io (.sel e))) :
    (fileSpliceDatabase f sel d).2.base = d.base ∧
    (fileSpliceDatabase f sel d).2.log = d.log ∧
    (fileSpliceDatabase f sel d).2.payloads = d.payloads ∧
    (fileSpliceDatabase f sel d).2.newBase.isSome ∧
    (fileSpliceDatabase f sel d).2.newLog.isSome := by
  by_cases hnb : d.newBase.isSome
  · rw [fileSpliceDatabase, if_pos hnb] at herr
    simp at herr
  by_cases hnl : d.newLog.isSome
  · rw [fileSpliceDatabase, if_neg hnb, if_pos hnl] at herr
    simp at herr
  rw [fileSpliceDatabase, if_neg hnb, if_neg hnl] at herr ⊢
  cases hr : (ioSpliceDatabase f sel d.base d.log).1 with
  | some e2 =>
    simp only [hr]
    simp
  | none =>
    rw [hr] at herr
    simp at herr

/-- Always-failing rebase selector used for concrete error runs. -/
def errSelector : Nat → Nat → Except Nat Bool := fun _ _ => .error 7

/-- Counterexample to C6 as stated: on a selector error the splice has
already touched the file system — the returned directory state differs
from the initial one, the created base.new and log.new remaining. -/
theorem spliceDatabase_selector_error_counterexample :
    (fileSpliceDatabase payloadFactory errSelector
      (⟨some 0, some [1], [], none, none⟩ : DirState Nat Nat)).1 =
        some (.io (.sel 7)) ∧
    (fileSpliceDatabase payloadFactory errSelector
      (⟨some 0, some [1], [], none, none⟩ : DirState Nat Nat)).2 ≠
        ⟨some 0, some [1], [], none, none⟩ := by
  constructor
  · rfl
  · decide

/-- Witness for the amended C6 at a concrete erroring run. -/
theorem spliceDatabase_selector_error_frame_witness :
    (fileSpliceDatabase payloadFactory errSelector
      (⟨some 3, some [2], ["x"], none, none⟩ : DirState Nat Nat)).2.base = some 3 ∧
    (fileSpliceDatabase payloadFactory errSelector
      (⟨some 3, some [2], ["x"], none, none⟩ : DirState Nat Nat)).2.payloads = ["x"] ∧
    (fileSpliceDatabase payloadFactory errSelector
      (⟨some 3, some [2], ["x"], none, none⟩ : DirState Nat Nat)).2.newBase.isSome := by
  have h := spliceDatabase_selector_error_frame payloadFactory errSelector
    (⟨some 3, some [2], ["x"], none, none⟩ : DirState Nat Nat) 7 rfl
  exact ⟨h.1, h.2.2.1, h.2.2.2.1⟩

/-! Deck (io/file/deck.go). -/

/-- Handle of an open filesystem database as the deck caches it: the
derived key and the meta it was opened with. -/
structure DBHandle (M : Type) where
  key : List Nat
  meta : M
deriving DecidableEq

/-- Cache entry: the database handle and the state of its per-entry
mutex. -/
structure DeckEntry (M : Type) where
  db : DBHandle M
  locked : Bool
deriving DecidableEq

/-- Deck state: the path-keyed cache of open handles (the LRU recency
bookkeeping is not modelled; Open never evicts). -/
structure Deck (M : Type) where
  cache : List (String × DeckEntry M)
deriving DecidableEq

/-- deriveKey of the deck: the options keyFunc applied to the meta, or a
nil key when no keyFunc is configured. -/
def deriveKey {M E : Type} (keyFunc : Option (M → Except E (List Nat))) (meta : M) :
    Except E (List Nat) :=
  match keyFunc with
  | some kf => kf meta
  | none => .ok []

/-- Errors of Deck.Open. -/
inductive DeckOpenError (E O : Type) where
  | openDatabase (e : O)
  | derive (e : E)
  | invalidKey
deriving DecidableEq

/-- Tail of Deck.Open shared by cache hit and miss: derive the key from
the options against the handle meta, compare byte-for-byte with the
handle key, return ErrInvalidKey on mismatch without taking the
per-entry mutex, and on a match take the mutex and hand out the
handle. -/
def deckCheckAndLock {M E O : Type} (keyFunc : Option (M → Except E (List Nat)))
    (d : Deck M) (path : String) (ent : DeckEntry M) :
    Except (DeckOpenError E O) (DBHandle M) × Deck M :=
  match deriveKey keyFunc ent.db.meta with
  | .error e => (.error (.derive e), d)
  | .ok key =>
    if ent.db.key = key then
      (.ok ent.db,
       ⟨d.cache.map fun pe => if pe.1 = path then (pe.1, ⟨pe.2.db, true⟩) else pe⟩)
    else (.error .invalidKey, d)

/-- Deck.Open: look the path up in the cache; on a miss open the database
(openFn stands for OpenDatabase on that path) and insert the new entry;
then check the key and lock. -/
def deckOpen {M E O : Type} (openFn : Except O (DBHandle M))
    (keyFunc : Option (M → Except E (List Nat))) (d : Deck M) (path : String) :
    Except (DeckOpenError E O) (DBHandle M) × Deck M :=
  match d.cache.lookup path with
  | some ent => deckCheckAndLock keyFunc d path ent
  | none =>
    match openFn with
    | .error e => (.error (.openDatabase e), d)
    | .ok db => deckCheckAndLock keyFunc ⟨(path, ⟨db, false⟩) :: d.cache⟩ path ⟨db, false⟩

/-- Claim C9: deck key-mismatch rejection.  Whenever the key derived from
the supplied options differs from the cached (or just-opened) handle's
key, Deck.Open returns ErrInvalidKey without acquiring the per-entry
mutex, and the cache keeps the handle in place unchanged: on a hit the
deck state is returned untouched, on a miss the freshly opened handle
sits in the cache unlocked. -/
theorem deckOpen_key_mismatch {M E O : Type} (openFn : Except O (DBHandle M))
    (keyFunc : Option (M → Except E (List Nat))) (d : Deck M) (path : String) :
    (∀ ent key1, d.cache.lookup path = some ent →
      deriveKey keyFunc ent.db.meta = .ok key1 → ent.db.key ≠ key1 →
      deckOpen openFn keyFunc d path = (.error .invalidKey, d)) ∧
    (∀ db key1, d.cache.lookup path = none → openFn = .ok db →
      deriveKey keyFunc db.meta = .ok key1 → db.key ≠ key1 →
      deckOpen openFn keyFunc d path =
        (.error .invalidKey, ⟨(path, ⟨db, false⟩) :: d.cache⟩)) := by
  constructor
  · intro ent key1 hlook hder hne
    simp only [deckOpen.eq_def, hlook]
    simp only [deckCheckAndLock.eq_def, hder]
    rw [if_neg hne]
  · intro db key1 hlook hopen hder hne
    simp only [deckOpen.eq_def, hlook, hopen]
    simp only [deckCheckAndLock.eq_def]
    simp only [hder]
    rw [if_neg hne]

/-- Witness for C9: a cached handle under key 0x01 rejected with a
derived key 0x02, the cache and its mutex state untouched. -/
theorem deckOpen_key_mismatch_witness :
    deckOpen (M := Nat) (E := Nat) (O := Nat) (.ok ⟨[9], 0⟩)
        (some fun _ => .ok [2])
        ⟨[("p", ⟨⟨[1], 0⟩, false⟩)]⟩ "p" =
      (.error .invalidKey, ⟨[("p", ⟨⟨[1], 0⟩, false⟩)]⟩) :=
  (deckOpen_key_mismatch (.ok ⟨[9], 0⟩) (some fun _ => .ok [2])
    ⟨[("p", ⟨⟨[1], 0⟩, false⟩)]⟩ "p").1 ⟨⟨[1], 0⟩, false⟩ [2] rfl rfl (by decide)

end TapeDB
